import Mathlib

/-!
Verification of the chunking pipeline in
`rag/.opencode/skills/chunking/scripts/chunk.py`.

Texts are modelled as `List Char` (a Python `str` is an immutable sequence of
characters, and the program addresses it exclusively through character
offsets).  Every definition is a computable, structurally recursive function;
where the Python original loops on a measure that is not a direct structural
argument, a `fuel` argument bounds the recursion and the initial fuel is
chosen strictly larger than the measure, so the out-of-fuel branch is
unreachable on the inputs the program can produce.
-/

set_option maxRecDepth 8000

namespace Chunking

/-- Python whitespace as used by `str.strip()` and the regex class `\s`
(the ASCII part, which covers every character this repository manipulates). -/
def isPySpace (c : Char) : Bool :=
  c == ' ' || c == '\t' || c == '\n' || c == '\r' || c == '\x0b' || c == '\x0c'

/-- Python `text.strip()`: drop whitespace from both ends. -/
def pyStrip (l : List Char) : List Char :=
  ((l.dropWhile isPySpace).reverse.dropWhile isPySpace).reverse

/-- Python `text[a:b]` for `0 ≤ a, b` (clamping slice semantics). -/
def pySlice (l : List Char) (a b : Nat) : List Char :=
  (l.take b).drop a

/-- Index of the first occurrence of `sep` in `l` (`none` if `sep` does not
occur). `firstOcc sep l = some 0` for `sep = []`, matching Python's
`"" in text == True`. -/
def firstOcc (sep : List Char) : List Char → Option Nat
  | [] => if sep.isPrefixOf ([] : List Char) then some 0 else none
  | c :: rest =>
    if sep.isPrefixOf (c :: rest) then some 0
    else (firstOcc sep rest).map (· + 1)

/-- Python `text.split(sep)` for non-empty `sep`: cut at each non-overlapping
occurrence of `sep`, left to right, discarding the separator.  `fuel` bounds
the number of cuts; `fuel = length + 1` always suffices for non-empty `sep`
(Python raises `ValueError` on an empty separator, which never arises here). -/
def splitOnFuel (sep : List Char) : Nat → List Char → List (List Char)
  | 0, l => [l]
  | fuel + 1, l =>
    match firstOcc sep l with
    | none => [l]
    | some i => l.take i :: splitOnFuel sep fuel (l.drop (i + sep.length))

/-- Python `text.split(sep)`. -/
def pySplitOn (sep l : List Char) : List (List Char) :=
  splitOnFuel sep (l.length + 1) l

/-- The fixed-width fallback of `recursive_split` (chunk.py lines 89-94):
consecutive slices of `csize` characters.  For `csize = 0` the Python loop
would never terminate; the fuel guard makes the Lean function total there. -/
def slicesOfFuel (csize : Nat) : Nat → List Char → List (List Char)
  | 0, _ => []
  | fuel + 1, l =>
    if l.isEmpty then []
    else l.take csize :: slicesOfFuel csize fuel (l.drop csize)

/-- `self.separators` from `TextSplitter.__init__` (chunk.py line 32). -/
def separators : List (List Char) :=
  [['\n', '\n', '\n'], ['\n', '\n'], ['\n'], ['。'], ['！'], ['？']]

/-- The `for sep in self.separators: if sep in text:` search (chunk.py
lines 80-81): the first separator, in priority order, occurring in `t`. -/
def findSep (t : List Char) : Option (List Char) :=
  separators.find? (fun sep => (firstOcc sep t).isSome)

/-- `TextSplitter.recursive_split` (chunk.py lines 71-95).  The Python
function recurses on strictly shorter fragments (splitting on a non-empty
separator that occurs in the text shortens every part), so fuel
`length + 1` is never exhausted. -/
def recursiveSplitFuel (csize : Nat) : Nat → List Char → List (List Char)
  | 0, _ => []
  | fuel + 1, text =>
    let t := pyStrip text
    if t.isEmpty then []
    else if t.length ≤ csize then [t]
    else
      match findSep t with
      | some sep => ((pySplitOn sep t).map (recursiveSplitFuel csize fuel)).flatten
      | none => slicesOfFuel csize (t.length + 1) t

/-- `TextSplitter.recursive_split` at its canonical fuel. -/
def recursive_split (csize : Nat) (text : List Char) : List (List Char) :=
  recursiveSplitFuel csize (text.length + 1) text

/-- `TextSplitter.split_preserving_protected` (chunk.py lines 50-69),
walking the range list while carrying `last_index`. -/
def sppAux (csize : Nat) (text : List Char) : List (Nat × Nat) → Nat → List (List Char)
  | [], last =>
    if last < text.length then recursive_split csize (text.drop last) else []
  | (s, e) :: rest, last =>
    (if last < s then recursive_split csize (pySlice text last s) else []) ++
      (pySlice text s e :: sppAux csize text rest e)

/-- `TextSplitter.split_preserving_protected`. -/
def split_preserving_protected (csize : Nat) (text : List Char)
    (ranges : List (Nat × Nat)) : List (List Char) :=
  sppAux csize text ranges 0

/-- The overlap carry-over of `merge_chunks` (chunk.py line 106):
`current_chunk[-k:] if k < len(current_chunk) else current_chunk`.
Python's `s[-0:]` is the whole string, hence the inner `k = 0` case. -/
def pyOverlap (cur : List Char) (k : Nat) : List Char :=
  if k < cur.length then (if k = 0 then cur else cur.drop (cur.length - k)) else cur

/-- `TextSplitter.merge_chunks` (chunk.py lines 97-113), with the chunk
accumulator turned into the result of the recursion and `current_chunk`
carried as `cur`. -/
def mergeAux (csize k : Nat) : List (List Char) → List Char → List (List Char)
  | [], cur => if cur.isEmpty then [] else [cur]
  | seg :: rest, cur =>
    if csize < cur.length + seg.length then
      let tail := mergeAux csize k rest (pyOverlap cur k ++ seg)
      if cur.isEmpty then tail else cur :: tail
    else mergeAux csize k rest (cur ++ seg)

/-- `TextSplitter.merge_chunks`. -/
def merge_chunks (csize k : Nat) (segs : List (List Char)) : List (List Char) :=
  mergeAux csize k segs []

/-! ### Protected-region detection

Each of the five `protect_patterns` (chunk.py lines 33-39) is embedded as an
anchored matcher `List Char → Option Nat` returning the length of the match
the Python regex engine produces at the current position, and `re.finditer`
is the usual leftmost, non-overlapping scan over those anchored matchers. -/

/-- The body `.*?\]\(.*?\)` shared by the image and link patterns, after the
opening bracket: lazily look for `](`, then for the closing parenthesis; `.`
never matches a newline, and on failure the candidate `]` is consumed by the
lazy `.*?` and the scan continues. Returns the number of characters matched. -/
def parenClose : List Char → Option Nat
  | [] => none
  | c :: rest =>
    if c == ')' then some 1
    else if c == '\n' then none
    else (parenClose rest).map (· + 1)

/-- See `parenClose`; this scans for `](` followed by a closed parenthesis. -/
def linkBody : List Char → Option Nat
  | [] => none
  | c :: rest =>
    if c == '\n' then none
    else if c == ']' then
      match rest with
      | '(' :: tail =>
        match parenClose tail with
        | some n => some (n + 2)
        | none => (linkBody rest).map (· + 1)
      | _ => (linkBody rest).map (· + 1)
    else (linkBody rest).map (· + 1)

/-- Pattern 1, `\$\$[\s\S]*?\$\$`: display math, lazy up to the next `$$`. -/
def matchDollar (l : List Char) : Option Nat :=
  if ['$', '$'].isPrefixOf l then (firstOcc ['$', '$'] (l.drop 2)).map (· + 4)
  else none

/-- Pattern 2, the fenced code block: lazy up to the next closing fence. -/
def matchFence (l : List Char) : Option Nat :=
  if ['`', '`', '`'].isPrefixOf l then (firstOcc ['`', '`', '`'] (l.drop 3)).map (· + 6)
  else none

/-- Pattern 3, `!\[.*?\]\(.*?\)`: image reference. -/
def matchImage : List Char → Option Nat
  | '!' :: '[' :: rest => (linkBody rest).map (· + 2)
  | _ => none

/-- Pattern 4, `\[.*?\]\(.*?\)`: link reference. -/
def matchLink : List Char → Option Nat
  | '[' :: rest => (linkBody rest).map (· + 1)
  | _ => none

/-- Index of the last `|` before the first newline, if any. -/
def lastPipeIdx : List Char → Option Nat
  | [] => none
  | c :: rest =>
    if c == '\n' then none
    else
      match lastPipeIdx rest with
      | some i => some (i + 1)
      | none => if c == '|' then some 0 else none

/-- Pattern 5, `[ ]*(?:\|[^|\n]*)+\|`: a table row; greedy leading spaces,
then a run of pipe-delimited cells ending at the last `|` on the line (the
greedy group backtracks exactly to that final pipe, so the row must contain
at least two `|` characters). -/
def matchTable (l : List Char) : Option Nat :=
  let s := (l.takeWhile (fun c => c == ' ')).length
  match l.drop s with
  | '|' :: t =>
    match lastPipeIdx t with
    | some i => some (s + 1 + (i + 1))
    | none => none
  | _ => none

/-- `re.finditer`: scan left to right; on a match of length `n ≥ 1` at
offset `pos` record `(pos, pos + n)` and resume after it, otherwise advance
one character.  None of the five matchers can match the empty string, so the
`some 0` case (folded into the wildcard) never fires.  Each step consumes at
least one character, so fuel `length + 1` is never exhausted. -/
def finditerFuel (m : List Char → Option Nat) : Nat → List Char → Nat → List (Nat × Nat)
  | 0, _, _ => []
  | _ + 1, [], _ => []
  | fuel + 1, c :: cs, pos =>
    match m (c :: cs) with
    | some (n + 1) => (pos, pos + n + 1) :: finditerFuel m fuel ((c :: cs).drop (n + 1)) (pos + n + 1)
    | _ => finditerFuel m fuel cs (pos + 1)

/-- `re.finditer(pattern, text)` as a list of `(start, end)` offsets. -/
def pyFinditer (m : List Char → Option Nat) (l : List Char) : List (Nat × Nat) :=
  finditerFuel m (l.length + 1) l 0

/-- `self.protect_patterns` in source order (chunk.py lines 33-39). -/
def protectMatchers : List (List Char → Option Nat) :=
  [matchDollar, matchFence, matchImage, matchLink, matchTable]

/-- One step of the stable insertion sort realising Python's
`matches.sort()` on `(start, end)` tuples (lexicographic order). -/
def insertRange (r : Nat × Nat) : List (Nat × Nat) → List (Nat × Nat)
  | [] => [r]
  | s :: rest =>
    if s.1 < r.1 ∨ (s.1 = r.1 ∧ s.2 ≤ r.2) then s :: insertRange r rest
    else r :: s :: rest

/-- Python's `matches.sort()` (stable, lexicographic on the pair). -/
def sortRanges (l : List (Nat × Nat)) : List (Nat × Nat) :=
  l.foldr insertRange []

/-- `TextSplitter.extract_protected_ranges` (chunk.py lines 41-48): all
matches of every pattern, concatenated in pattern order, then sorted. -/
def extract_protected_ranges (text : List Char) : List (Nat × Nat) :=
  sortRanges ((protectMatchers.map (fun m => pyFinditer m text)).flatten)

/-! ### Header tracking -/

/-- The header map `active_headers : Dict[int, str]`, as an association
list with at most one entry per level. -/
abbrev HeaderState := List (Nat × List Char)

/-- The empty map a fresh `HeaderTracker` starts with. -/
def hsEmpty : HeaderState := []

/-- Python `active_headers[level] = title`: replace in place if the key is
present (a dict update keeps the entry's position), otherwise append. -/
def hsSet (st : HeaderState) (lv : Nat) (title : List Char) : HeaderState :=
  if st.any (fun p => p.1 == lv) then
    st.map (fun p => if p.1 == lv then (lv, title) else p)
  else st ++ [(lv, title)]

/-- The deletion loop: `del active_headers[k]` for every `k > level`. -/
def hsClear (st : HeaderState) (lv : Nat) : HeaderState :=
  st.filter (fun p => decide (p.1 ≤ lv))

/-- The body of the `for hashes, title in matches:` loop in
`HeaderTracker.update_from_text` (chunk.py lines 13-19). -/
def updateStep (st : HeaderState) (m : Nat × List Char) : HeaderState :=
  hsClear (hsSet st m.1 (pyStrip m.2)) m.1

/-- An anchored match of `^(#{1,6})\s+(.+)$` (multiline) at a line start:
returns the level, the raw title capture and the number of characters
consumed.  `\s+` is greedy and may span newlines; when the text ends inside
that whitespace the engine backtracks so that `.+` captures the last
non-newline whitespace character, provided `\s+` keeps at least one
character. -/
def tryHeaderMatch (l : List Char) : Option (Nat × List Char × Nat) :=
  let hn := (l.takeWhile (fun c => c == '#')).length
  if hn = 0 ∨ 6 < hn then none
  else
    let rest := l.drop hn
    let w := rest.takeWhile isPySpace
    if w.isEmpty then none
    else
      let afterW := rest.drop w.length
      if afterW.isEmpty then
        match (w.drop 1).reverse.dropWhile (fun c => c == '\n') with
        | [] => none
        | c :: ws => some (hn, [c], hn + 1 + (c :: ws).length)
      else
        let title := afterW.takeWhile (fun c => !(c == '\n'))
        some (hn, title, hn + w.length + title.length)

/-- `re.findall(r'^(#{1,6})\s+(.+)$', text, re.MULTILINE)`: try the anchored
match at every line start, resume after each match (a match always ends
right after a non-newline title character, so the resume position is never a
line start), otherwise advance one character.  Fuel `length + 1` suffices
since every step consumes at least one character. -/
def headerScanAux : Nat → List Char → Bool → List (Nat × List Char)
  | 0, _, _ => []
  | _ + 1, [], _ => []
  | fuel + 1, c :: cs, lineStart =>
    if lineStart then
      match tryHeaderMatch (c :: cs) with
      | some (lv, title, n) => (lv, title) :: headerScanAux fuel ((c :: cs).drop n) false
      | none => headerScanAux fuel cs (c == '\n')
    else headerScanAux fuel cs (c == '\n')

/-- The list of `(level, raw title)` header matches of a document. -/
def headerScan (text : List Char) : List (Nat × List Char) :=
  headerScanAux (text.length + 1) text true

/-- `HeaderTracker.update_from_text` (chunk.py lines 10-19). -/
def update_from_text (st : HeaderState) (text : List Char) : HeaderState :=
  (headerScan text).foldl updateStep st

/-- Stable insertion sort of the map entries by level, realising
`sorted(self.active_headers.keys())` (keys are unique in a dict, so sorting
the entries and projecting the titles is the same list). -/
def insertPair (r : Nat × List Char) : List (Nat × List Char) → List (Nat × List Char)
  | [] => [r]
  | s :: rest => if s.1 ≤ r.1 then s :: insertPair r rest else r :: s :: rest

/-- See `insertPair`. -/
def sortPairs (l : List (Nat × List Char)) : List (Nat × List Char) :=
  l.foldr insertPair []

/-- Python `' > '.join(titles)`. -/
def joinSep (sep : List Char) : List (List Char) → List Char
  | [] => []
  | [x] => x
  | x :: y :: rest => x ++ sep ++ joinSep sep (y :: rest)

/-- `HeaderTracker.get_headers` (chunk.py lines 21-23). -/
def get_headers (st : HeaderState) : List Char :=
  joinSep [' ', '>', ' '] ((sortPairs st).map (fun p => p.2))

/-! ### The pipeline -/

/-- `TextSplitter.split` (chunk.py lines 115-135).  The header tracker is an
instance field mutated by the call, so the function takes the tracker state
and returns the updated state alongside the chunks.  `get_headers()` is
called once per chunk in the source, but the state does not change inside
that loop, so the prefix is one fixed string. -/
def splitS (csize k : Nat) (st : HeaderState) (text : List Char) :
    List (List Char) × HeaderState :=
  let st2 := update_from_text st text
  let ranges := extract_protected_ranges text
  let segs := split_preserving_protected csize text ranges
  let chunks := merge_chunks csize k segs
  let hp := get_headers st2
  (chunks.map (fun c => if hp.isEmpty then c else hp ++ ['\n', '\n'] ++ c), st2)

/-- Well-formedness of a range list relative to a starting offset: ranges
are in order, non-overlapping and within the text (what §4.3 requires the
caller to supply; `extract_protected_ranges` can violate the non-overlap
part when two patterns match overlapping spans). -/
def rangesOkB (text : List Char) : List (Nat × Nat) → Nat → Bool
  | [], last => decide (last ≤ text.length)
  | (s, e) :: rest, last =>
    decide (last ≤ s) && decide (s ≤ e) && rangesOkB text rest e

/-- Every unprotected gap is reproduced exactly by `recursive_split`
(concatenating its pieces gives the gap back).  `recursive_split` trims
whitespace and discards separators, so this fails for general gaps. -/
def gapsOkB (csize : Nat) (text : List Char) : List (Nat × Nat) → Nat → Bool
  | [], last =>
    (recursive_split csize (text.drop last)).flatten == text.drop last
  | (s, e) :: rest, last =>
    ((recursive_split csize (pySlice text last s)).flatten == pySlice text last s) &&
      gapsOkB csize text rest e

/-! ### Lemmas about `merge_chunks` -/

theorem mergeAux_chain (csize k : Nat) (segs : List (List Char)) :
    ∀ cur : List Char,
      List.Chain' (fun a b => pyOverlap a k <+: b) (mergeAux csize k segs cur) ∧
      (∀ c, (mergeAux csize k segs cur).head? = some c → cur <+: c) := by
  induction segs with
  | nil =>
    intro cur
    by_cases h : cur.isEmpty
    · simp [mergeAux, h]
    · refine ⟨by simp [mergeAux, h], ?_⟩
      intro c hc
      simp [mergeAux, h] at hc
      simp [hc]
  | cons seg rest ih =>
    intro cur
    by_cases hfit : csize < cur.length + seg.length
    · by_cases hemp : cur.isEmpty
      · refine ⟨?_, ?_⟩
        · simpa [mergeAux, hfit, hemp] using (ih (pyOverlap cur k ++ seg)).1
        · intro c hc
          have : cur = [] := by simpa [List.isEmpty_iff] using hemp
          simp [this]
      · have htail := ih (pyOverlap cur k ++ seg)
        refine ⟨?_, ?_⟩
        · have hres : mergeAux csize k (seg :: rest) cur =
              cur :: mergeAux csize k rest (pyOverlap cur k ++ seg) := by
            simp [mergeAux, hfit, hemp]
          rw [hres, List.chain'_cons']
          refine ⟨?_, htail.1⟩
          intro b hb
          have hb' := htail.2 b hb
          exact (List.prefix_append (pyOverlap cur k) seg).trans hb'
        · intro c hc
          have hres : mergeAux csize k (seg :: rest) cur =
              cur :: mergeAux csize k rest (pyOverlap cur k ++ seg) := by
            simp [mergeAux, hfit, hemp]
          rw [hres] at hc
          simp at hc
          simp [hc]
    · have htail := ih (cur ++ seg)
      refine ⟨?_, ?_⟩
      · simpa [mergeAux, hfit] using htail.1
      · intro c hc
        have hc' : (mergeAux csize k rest (cur ++ seg)).head? = some c := by
          simpa [mergeAux, hfit] using hc
        exact (List.prefix_append cur seg).trans (htail.2 c hc')

theorem pyOverlap_length_le (cur : List Char) (k : Nat) (hk : 1 ≤ k) :
    (pyOverlap cur k).length ≤ k := by
  unfold pyOverlap
  by_cases h : k < cur.length
  · have hk0 : ¬ k = 0 := by omega
    simp [h, hk0]
    omega
  · simp [h]
    omega

theorem merge_buffer_infix (csize k : Nat) (segs : List (List Char)) :
    ∀ cur : List Char, cur ≠ [] →
      ∃ c ∈ mergeAux csize k segs cur, cur <:+: c := by
  induction segs with
  | nil =>
    intro cur h
    refine ⟨cur, ?_, List.infix_refl cur⟩
    simp [mergeAux, h]
  | cons seg rest ih =>
    intro cur h
    have hemp : cur.isEmpty = false := by simpa [List.isEmpty_iff] using h
    by_cases hfit : csize < cur.length + seg.length
    · refine ⟨cur, ?_, List.infix_refl cur⟩
      simp [mergeAux, hfit, hemp]
    · obtain ⟨c, hc, hinf⟩ := ih (cur ++ seg) (by simp [h])
      refine ⟨c, ?_, ((List.prefix_append cur seg).isInfix).trans hinf⟩
      simpa [mergeAux, hfit] using hc

theorem merge_seg_infix (csize k : Nat) (segs : List (List Char)) :
    ∀ (cur s : List Char), s ∈ segs → s ≠ [] →
      ∃ c ∈ mergeAux csize k segs cur, s <:+: c := by
  induction segs with
  | nil => intro cur s hs _; simp at hs
  | cons seg rest ih =>
    intro cur s hs hne
    rcases List.mem_cons.mp hs with hseg | hrest
    · subst hseg
      by_cases hfit : csize < cur.length + s.length
      · obtain ⟨c, hc, hinf⟩ :=
          merge_buffer_infix csize k rest (pyOverlap cur k ++ s) (by simp [hne])
        refine ⟨c, ?_, ((List.suffix_append (pyOverlap cur k) s).isInfix).trans hinf⟩
        by_cases hemp : cur.isEmpty <;> simp [mergeAux, hfit, hemp, hc]
      · obtain ⟨c, hc, hinf⟩ :=
          merge_buffer_infix csize k rest (cur ++ s) (by simp [hne])
        refine ⟨c, ?_, ((List.suffix_append cur s).isInfix).trans hinf⟩
        simpa [mergeAux, hfit] using hc
    · by_cases hfit : csize < cur.length + seg.length
      · obtain ⟨c, hc, hinf⟩ := ih (pyOverlap cur k ++ seg) s hrest hne
        refine ⟨c, ?_, hinf⟩
        by_cases hemp : cur.isEmpty <;> simp [mergeAux, hfit, hemp, hc]
      · obtain ⟨c, hc, hinf⟩ := ih (cur ++ seg) s hrest hne
        refine ⟨c, ?_, hinf⟩
        simpa [mergeAux, hfit] using hc

theorem merge_size (csize k : Nat) (P : List Char → Prop) (hk : 1 ≤ k)
    (segs : List (List Char)) :
    ∀ cur : List Char, (∀ s ∈ segs, s.length ≤ csize ∨ P s) →
      (cur.length ≤ csize + k ∨ ∃ s, P s ∧ s <:+: cur) →
      ∀ c ∈ mergeAux csize k segs cur,
        c.length ≤ csize + k ∨ ∃ s, P s ∧ s <:+: c := by
  induction segs with
  | nil =>
    intro cur _ hinv c hc
    by_cases h : cur.isEmpty
    · simp [mergeAux, h] at hc
    · simp [mergeAux, h] at hc
      subst hc
      exact hinv
  | cons seg rest ih =>
    intro cur hsegs hinv c hc
    have hseg := hsegs seg (by simp)
    have hrest : ∀ s ∈ rest, s.length ≤ csize ∨ P s := fun s hs =>
      hsegs s (by simp [hs])
    by_cases hfit : csize < cur.length + seg.length
    · have hnew : (pyOverlap cur k ++ seg).length ≤ csize + k ∨
          ∃ s, P s ∧ s <:+: (pyOverlap cur k ++ seg) := by
        rcases hseg with hlen | hP
        · left
          have := pyOverlap_length_le cur k hk
          simp only [List.length_append]
          omega
        · exact Or.inr ⟨seg, hP, (List.suffix_append (pyOverlap cur k) seg).isInfix⟩
      by_cases hemp : cur.isEmpty
      · simp only [mergeAux, hfit, if_pos, hemp, if_true] at hc
        exact ih (pyOverlap cur k ++ seg) hrest hnew c (by simpa using hc)
      · simp only [mergeAux, if_pos hfit] at hc
        rw [if_neg (by simp [hemp])] at hc
        rcases List.mem_cons.mp hc with hcur | htail
        · subst hcur; exact hinv
        · exact ih (pyOverlap cur k ++ seg) hrest hnew c htail
    · have hnew : (cur ++ seg).length ≤ csize + k ∨
          ∃ s, P s ∧ s <:+: (cur ++ seg) := by
        left
        simp only [List.length_append]
        omega
      simp only [mergeAux, if_neg hfit] at hc
      exact ih (cur ++ seg) hrest hnew c hc

/-! ### Lemmas about `recursive_split` -/

theorem slicesOfFuel_length_le (csize : Nat) :
    ∀ (fuel : Nat) (l p : List Char), p ∈ slicesOfFuel csize fuel l → p.length ≤ csize := by
  intro fuel
  induction fuel with
  | zero => intro l p hp; simp [slicesOfFuel] at hp
  | succ fuel ih =>
    intro l p hp
    by_cases h : l.isEmpty
    · simp [slicesOfFuel, h] at hp
    · simp only [slicesOfFuel, h, Bool.false_eq_true, if_false, List.mem_cons] at hp
      rcases hp with hp | hp
      · subst hp
        simp
      · exact ih _ p hp

theorem slicesOfFuel_ne_nil (csize : Nat) (h1 : 1 ≤ csize) :
    ∀ (fuel : Nat) (l p : List Char), p ∈ slicesOfFuel csize fuel l → p ≠ [] := by
  intro fuel
  induction fuel with
  | zero => intro l p hp; simp [slicesOfFuel] at hp
  | succ fuel ih =>
    intro l p hp
    by_cases h : l.isEmpty
    · simp [slicesOfFuel, h] at hp
    · simp only [slicesOfFuel, h, Bool.false_eq_true, if_false, List.mem_cons] at hp
      rcases hp with hp | hp
      · subst hp
        have hl : l ≠ [] := by simpa [List.isEmpty_iff] using h
        simp [List.take_eq_nil_iff]
        exact ⟨by omega, hl⟩
      · exact ih _ p hp

theorem recursiveSplitFuel_length_le (csize : Nat) :
    ∀ (fuel : Nat) (t p : List Char),
      p ∈ recursiveSplitFuel csize fuel t → p.length ≤ csize := by
  intro fuel
  induction fuel with
  | zero => intro t p hp; simp [recursiveSplitFuel] at hp
  | succ fuel ih =>
    intro t p hp
    simp only [recursiveSplitFuel] at hp
    by_cases h0 : (pyStrip t).isEmpty
    · simp [h0] at hp
    · simp only [h0, Bool.false_eq_true, if_false] at hp
      by_cases h1 : (pyStrip t).length ≤ csize
      · simp only [h1, if_true, List.mem_singleton] at hp
        subst hp; exact h1
      · simp only [h1, if_false] at hp
        rcases hsep : findSep (pyStrip t) with _ | sep
        · rw [hsep] at hp
          exact slicesOfFuel_length_le csize _ _ p hp
        · rw [hsep] at hp
          rw [List.mem_flatten] at hp
          obtain ⟨l, hl, hpl⟩ := hp
          rw [List.mem_map] at hl
          obtain ⟨part, _, hpart⟩ := hl
          subst hpart
          exact ih part p hpl

theorem recursiveSplitFuel_ne_nil (csize : Nat) (h1 : 1 ≤ csize) :
    ∀ (fuel : Nat) (t p : List Char),
      p ∈ recursiveSplitFuel csize fuel t → p ≠ [] := by
  intro fuel
  induction fuel with
  | zero => intro t p hp; simp [recursiveSplitFuel] at hp
  | succ fuel ih =>
    intro t p hp
    simp only [recursiveSplitFuel] at hp
    by_cases h0 : (pyStrip t).isEmpty
    · simp [h0] at hp
    · simp only [h0, Bool.false_eq_true, if_false] at hp
      by_cases hle : (pyStrip t).length ≤ csize
      · simp only [hle, if_true, List.mem_singleton] at hp
        subst hp
        simpa [List.isEmpty_iff] using h0
      · simp only [hle, if_false] at hp
        rcases hsep : findSep (pyStrip t) with _ | sep
        · rw [hsep] at hp
          exact slicesOfFuel_ne_nil csize h1 _ _ p hp
        · rw [hsep] at hp
          rw [List.mem_flatten] at hp
          obtain ⟨l, hl, hpl⟩ := hp
          rw [List.mem_map] at hl
          obtain ⟨part, _, hpart⟩ := hl
          subst hpart
          exact ih part p hpl

theorem recursive_split_length_le (csize : Nat) (t p : List Char)
    (hp : p ∈ recursive_split csize t) : p.length ≤ csize :=
  recursiveSplitFuel_length_le csize _ t p hp

theorem recursive_split_ne_nil (csize : Nat) (h1 : 1 ≤ csize) (t p : List Char)
    (hp : p ∈ recursive_split csize t) : p ≠ [] :=
  recursiveSplitFuel_ne_nil csize h1 _ t p hp

/-! ### Lemmas about `split_preserving_protected` -/

theorem sppAux_slice_mem (csize : Nat) (text : List Char) :
    ∀ (ranges : List (Nat × Nat)) (last : Nat) (r : Nat × Nat), r ∈ ranges →
      pySlice text r.1 r.2 ∈ sppAux csize text ranges last := by
  intro ranges
  induction ranges with
  | nil => intro last r hr; simp at hr
  | cons q rest ih =>
    intro last r hr
    obtain ⟨s, e⟩ := q
    rcases List.mem_cons.mp hr with hq | hrest
    · subst hq
      simp [sppAux]
    · have := ih e r hrest
      simp [sppAux, this]

theorem sppAux_classify (csize : Nat) (text : List Char) :
    ∀ (ranges : List (Nat × Nat)) (last : Nat) (seg : List Char),
      seg ∈ sppAux csize text ranges last →
      seg.length ≤ csize ∨ ∃ r ∈ ranges, seg = pySlice text r.1 r.2 := by
  intro ranges
  induction ranges with
  | nil =>
    intro last seg hseg
    by_cases h : last < text.length
    · simp only [sppAux, h, if_true] at hseg
      exact Or.inl (recursive_split_length_le csize _ seg hseg)
    · simp [sppAux, h] at hseg
  | cons q rest ih =>
    intro last seg hseg
    obtain ⟨s, e⟩ := q
    simp only [sppAux, List.mem_append, List.mem_cons] at hseg
    rcases hseg with hgap | hseg | htail
    · by_cases h : last < s
      · simp only [h, if_true] at hgap
        exact Or.inl (recursive_split_length_le csize _ seg hgap)
      · simp [h] at hgap
    · exact Or.inr ⟨(s, e), by simp, hseg⟩
    · rcases ih e seg htail with hle | ⟨r, hr, hr2⟩
      · exact Or.inl hle
      · exact Or.inr ⟨r, by simp [hr], hr2⟩

theorem rangesOkB_le (text : List Char) :
    ∀ (ranges : List (Nat × Nat)) (last : Nat),
      rangesOkB text ranges last = true → last ≤ text.length := by
  intro ranges
  induction ranges with
  | nil => intro last h; simpa [rangesOkB] using h
  | cons q rest ih =>
    intro last h
    obtain ⟨s, e⟩ := q
    simp only [rangesOkB, Bool.and_eq_true, decide_eq_true_eq] at h
    have := ih e h.2
    omega

theorem slice_drop_glue (l : List Char) (a b : Nat) (hab : a ≤ b)
    (hb : b ≤ l.length) : pySlice l a b ++ l.drop b = l.drop a := by
  conv_rhs => rw [← List.take_append_drop b l]
  rw [List.drop_append_of_le_length (by simp; omega)]
  rfl

theorem sppAux_flatten (csize : Nat) (text : List Char) :
    ∀ (ranges : List (Nat × Nat)) (last : Nat),
      rangesOkB text ranges last = true →
      gapsOkB csize text ranges last = true →
      (sppAux csize text ranges last).flatten = text.drop last := by
  intro ranges
  induction ranges with
  | nil =>
    intro last hr hg
    simp only [rangesOkB, decide_eq_true_eq] at hr
    simp only [gapsOkB, beq_iff_eq] at hg
    by_cases h : last < text.length
    · simpa [sppAux, h] using hg
    · have : text.drop last = [] := by
        rw [List.drop_eq_nil_iff]
        omega
      simp [sppAux, h, this]
  | cons q rest ih =>
    intro last hr hg
    obtain ⟨s, e⟩ := q
    simp only [rangesOkB, Bool.and_eq_true, decide_eq_true_eq] at hr
    obtain ⟨⟨hls, hse⟩, hrest⟩ := hr
    simp only [gapsOkB, Bool.and_eq_true, beq_iff_eq] at hg
    obtain ⟨hgap, hgrest⟩ := hg
    have hel : e ≤ text.length := rangesOkB_le text rest e hrest
    have htail := ih e hrest hgrest
    simp only [sppAux, List.flatten_append, List.flatten_cons, htail]
    have hglue : pySlice text s e ++ text.drop e = text.drop s :=
      slice_drop_glue text s e hse hel
    by_cases h : last < s
    · simp only [h, if_true, hgap]
      rw [hglue]
      exact slice_drop_glue text last s (Nat.le_of_lt h) (hse.trans hel)
    · have : last = s := by omega
      subst this
      simp only [h, if_false, List.flatten_nil, List.nil_append]
      exact hglue

/-! ### Lemmas about `extract_protected_ranges` -/

theorem firstOcc_bound (sep : List Char) :
    ∀ (l : List Char) (i : Nat), firstOcc sep l = some i → i + sep.length ≤ l.length := by
  intro l
  induction l with
  | nil =>
    intro i h
    by_cases hp : sep.isPrefixOf ([] : List Char)
    · have hsep : sep = [] := by simpa [List.isPrefixOf_iff_prefix] using hp
      simp only [firstOcc, hp, if_true, Option.some_inj] at h
      simp [← h, hsep]
    · simp [firstOcc, hp] at h
  | cons c rest ih =>
    intro i h
    by_cases hp : sep.isPrefixOf (c :: rest)
    · simp only [firstOcc, hp, if_true, Option.some_inj] at h
      have hpre : sep <+: (c :: rest) := by simpa [List.isPrefixOf_iff_prefix] using hp
      have hle := hpre.length_le
      simp only [List.length_cons] at *
      omega
    · rcases hrec : firstOcc sep rest with _ | j
      · simp [firstOcc, hp, hrec] at h
      · simp only [firstOcc, hp, Bool.false_eq_true, if_false, hrec,
          Option.map_some', Option.some_inj] at h
        have := ih j hrec
        simp only [List.length_cons]
        omega

theorem parenClose_le :
    ∀ (l : List Char) (n : Nat), parenClose l = some n → n ≤ l.length := by
  intro l
  induction l with
  | nil => intro n h; simp [parenClose] at h
  | cons c rest ih =>
    intro n h
    simp only [parenClose] at h
    split at h
    · have h1 := Option.some_inj.mp h
      simp only [List.length_cons]
      omega
    · split at h
      · exact Option.noConfusion h
      · rcases hrec : parenClose rest with _ | j
        · rw [hrec, Option.map_none'] at h
          exact Option.noConfusion h
        · rw [hrec, Option.map_some'] at h
          have h1 := Option.some_inj.mp h
          have hj := ih j hrec
          simp only [List.length_cons]
          omega

theorem linkBody_le :
    ∀ (l : List Char) (n : Nat), linkBody l = some n → n ≤ l.length := by
  intro l
  induction l with
  | nil => intro n h; simp [linkBody] at h
  | cons c rest ih =>
    intro n h
    simp only [linkBody] at h
    split at h
    · exact Option.noConfusion h
    · split at h
      · split at h
        · split at h
          · rename_i rdead tail xdead m hm
            have h1 := Option.some_inj.mp h
            have h2 := parenClose_le tail m hm
            simp only [List.length_cons]
            omega
          · rename_i rdead tail xdead hm
            rcases hrec : linkBody ('(' :: tail) with _ | j
            · rw [hrec, Option.map_none'] at h
              exact Option.noConfusion h
            · rw [hrec, Option.map_some'] at h
              have h1 := Option.some_inj.mp h
              have h2 := ih j hrec
              simp only [List.length_cons] at *
              omega
        · rcases hrec : linkBody rest with _ | j
          · rw [hrec, Option.map_none'] at h
            exact Option.noConfusion h
          · rw [hrec, Option.map_some'] at h
            have h1 := Option.some_inj.mp h
            have h2 := ih j hrec
            simp only [List.length_cons]
            omega
      · rcases hrec : linkBody rest with _ | j
        · rw [hrec, Option.map_none'] at h
          exact Option.noConfusion h
        · rw [hrec, Option.map_some'] at h
          have h1 := Option.some_inj.mp h
          have h2 := ih j hrec
          simp only [List.length_cons]
          omega

theorem lastPipeIdx_lt :
    ∀ (l : List Char) (i : Nat), lastPipeIdx l = some i → i < l.length := by
  intro l
  induction l with
  | nil => intro i h; simp [lastPipeIdx] at h
  | cons c rest ih =>
    intro i h
    simp only [lastPipeIdx] at h
    split at h
    · exact Option.noConfusion h
    · split at h
      · rename_i xdead j hj
        have h1 := Option.some_inj.mp h
        have h2 := ih j hj
        simp only [List.length_cons]
        omega
      · split at h
        · have h1 := Option.some_inj.mp h
          simp only [List.length_cons]
          omega
        · exact Option.noConfusion h

theorem matchDollar_le (l : List Char) (n : Nat) (h : matchDollar l = some n) :
    n ≤ l.length := by
  unfold matchDollar at h
  split at h
  · rename_i hp
    rw [Option.map_eq_some'] at h
    obtain ⟨j, hj, hij⟩ := h
    have hb := firstOcc_bound _ _ _ hj
    have hpre : (['$', '$'] : List Char) <+: l := by
      simpa [List.isPrefixOf_iff_prefix] using hp
    have hl2 := hpre.length_le
    simp only [List.length_drop, List.length_cons, List.length_nil] at hb hl2
    omega
  · simp at h

theorem matchFence_le (l : List Char) (n : Nat) (h : matchFence l = some n) :
    n ≤ l.length := by
  unfold matchFence at h
  split at h
  · rename_i hp
    rw [Option.map_eq_some'] at h
    obtain ⟨j, hj, hij⟩ := h
    have hb := firstOcc_bound _ _ _ hj
    have hpre : (['`', '`', '`'] : List Char) <+: l := by
      simpa [List.isPrefixOf_iff_prefix] using hp
    have hl2 := hpre.length_le
    simp only [List.length_drop, List.length_cons, List.length_nil] at hb hl2
    omega
  · simp at h

theorem matchImage_le (l : List Char) (n : Nat) (h : matchImage l = some n) :
    n ≤ l.length := by
  unfold matchImage at h
  split at h
  · rename_i rest
    rw [Option.map_eq_some'] at h
    obtain ⟨j, hj, hij⟩ := h
    have := linkBody_le rest j hj
    simp only [List.length_cons]
    omega
  · simp at h

theorem matchLink_le (l : List Char) (n : Nat) (h : matchLink l = some n) :
    n ≤ l.length := by
  unfold matchLink at h
  split at h
  · rename_i rest
    rw [Option.map_eq_some'] at h
    obtain ⟨j, hj, hij⟩ := h
    have := linkBody_le rest j hj
    simp only [List.length_cons]
    omega
  · simp at h

theorem matchTable_le (l : List Char) (n : Nat) (h : matchTable l = some n) :
    n ≤ l.length := by
  simp only [matchTable] at h
  split at h
  · rename_i t heq
    split at h
    · rename_i i hi
      simp only [Option.some_inj] at h
      have hpipe := lastPipeIdx_lt t i hi
      have hsp : (l.takeWhile (fun c => c == ' ')).length ≤ l.length :=
        (List.takeWhile_sublist _).length_le
      have hlen : (l.drop ((l.takeWhile (fun c => c == ' ')).length)).length =
          l.length - (l.takeWhile (fun c => c == ' ')).length := List.length_drop _ _
      rw [heq] at hlen
      simp only [List.length_cons] at hlen
      omega
    · simp at h
  · simp at h

theorem finditerFuel_valid (m : List Char → Option Nat)
    (hm : ∀ l n, m l = some n → n ≤ l.length) :
    ∀ (fuel : Nat) (l : List Char) (pos : Nat) (r : Nat × Nat),
      r ∈ finditerFuel m fuel l pos →
      pos ≤ r.1 ∧ r.1 < r.2 ∧ r.2 ≤ pos + l.length := by
  intro fuel
  induction fuel with
  | zero => intro l pos r hr; simp [finditerFuel] at hr
  | succ fuel ih =>
    intro l pos r hr
    match l with
    | [] => simp [finditerFuel] at hr
    | c :: cs =>
      rcases hmv : m (c :: cs) with _ | n
      · simp only [finditerFuel, hmv] at hr
        have := ih cs (pos + 1) r hr
        simp only [List.length_cons]
        omega
      · rcases n with _ | n
        · simp only [finditerFuel, hmv] at hr
          have := ih cs (pos + 1) r hr
          simp only [List.length_cons]
          omega
        · simp only [finditerFuel, hmv, List.mem_cons] at hr
          have hn : n + 1 ≤ (c :: cs).length := hm _ _ hmv
          simp only [List.length_cons] at hn
          rcases hr with hr | hr
          · subst hr
            simp only [List.length_cons]
            omega
          · have := ih ((c :: cs).drop (n + 1)) (pos + n + 1) r hr
            simp only [List.length_drop, List.length_cons] at this
            simp only [List.length_cons]
            omega

theorem mem_insertRange (r a : Nat × Nat) :
    ∀ l : List (Nat × Nat), a ∈ insertRange r l ↔ a = r ∨ a ∈ l := by
  intro l
  induction l with
  | nil => simp [insertRange]
  | cons s rest ih =>
    simp only [insertRange]
    split
    · simp only [List.mem_cons, ih]
      tauto
    · simp only [List.mem_cons]

theorem mem_sortRanges (a : Nat × Nat) :
    ∀ l : List (Nat × Nat), a ∈ sortRanges l ↔ a ∈ l := by
  intro l
  induction l with
  | nil => simp [sortRanges]
  | cons r rest ih =>
    simp only [sortRanges, List.foldr_cons] at *
    rw [mem_insertRange, ih]
    simp

theorem extract_protected_ranges_valid (text : List Char) (r : Nat × Nat)
    (hr : r ∈ extract_protected_ranges text) : r.1 < r.2 ∧ r.2 ≤ text.length := by
  unfold extract_protected_ranges at hr
  rw [mem_sortRanges] at hr
  rw [List.mem_flatten] at hr
  obtain ⟨l, hl, hrl⟩ := hr
  rw [List.mem_map] at hl
  obtain ⟨m, hm, hml⟩ := hl
  subst hml
  have hbound : ∀ l' n, m l' = some n → n ≤ l'.length := by
    simp only [protectMatchers, List.mem_cons, List.mem_singleton] at hm
    rcases hm with h | h | h | h | h | h
    · subst h; exact matchDollar_le
    · subst h; exact matchFence_le
    · subst h; exact matchImage_le
    · subst h; exact matchLink_le
    · subst h; exact matchTable_le
    · simp at h
  have := finditerFuel_valid m hbound _ text 0 r hrl
  omega

/-! ### Lemmas about the header tracker -/

theorem updateStep_level_le (st : HeaderState) (lv : Nat) (title : List Char) :
    ∀ p ∈ updateStep st (lv, title), p.1 ≤ lv := by
  intro p hp
  unfold updateStep hsClear at hp
  rw [List.mem_filter] at hp
  exact of_decide_eq_true hp.2

theorem hsSet_cons_ne (p : Nat × List Char) (st : HeaderState) (lv : Nat)
    (t : List Char) (hp : (p.1 == lv) = false) :
    hsSet (p :: st) lv t = p :: hsSet st lv t := by
  unfold hsSet
  by_cases hany : st.any (fun q => q.1 == lv) = true
  · simp [List.any_cons, hp, hany]
    intro h
    simp [h] at hp
  · simp [List.any_cons, hp, hany]

theorem lookup_updateStep (lv : Nat) (t : List Char) :
    ∀ st : HeaderState, List.lookup lv (hsClear (hsSet st lv t) lv) = some t := by
  intro st
  induction st with
  | nil => simp [hsSet, hsClear, List.lookup]
  | cons p rest ih =>
    obtain ⟨pk, pv⟩ := p
    by_cases hp : (pk == lv) = true
    · have hlv : pk = lv := by simpa using hp
      subst hlv
      unfold hsSet
      rw [if_pos (by simp [List.any_cons])]
      simp only [List.map_cons, if_pos hp]
      simp [hsClear, List.lookup]
    · have hp' : ((pk, pv).1 == lv) = false := by simpa using hp
      rw [hsSet_cons_ne (pk, pv) rest lv t hp']
      by_cases hle : pk ≤ lv
      · simp only [hsClear, List.filter_cons, decide_eq_true hle, if_true]
        have hne : pk ≠ lv := by simpa using hp
        have hlk : (lv == pk) = false :=
          beq_eq_false_iff_ne.mpr (fun hcon => hne hcon.symm)
        simp only [List.lookup, hlk]
        exact ih
      · simp only [hsClear, List.filter_cons]
        rw [if_neg (by simpa using hle)]
        exact ih

theorem pySlice_ne_nil (l : List Char) (a b : Nat) (h1 : a < b) (h2 : b ≤ l.length) :
    pySlice l a b ≠ [] := by
  have : (pySlice l a b).length = b - a := by
    simp [pySlice]
    omega
  intro hc
  rw [hc] at this
  simp at this
  omega

/-! ### Claim theorems -/

/-- C1, counterexample: segment concatenation does not reproduce the original
text for every input.  On `" a"` (no protected ranges) `recursive_split`
strips the leading space, so the only segment is `"a"` and the concatenation
differs from the input. -/
theorem C1_counterexample :
    (split_preserving_protected 200 " a".data
        (extract_protected_ranges " a".data)).flatten ≠ " a".data := by
  decide

/-- C1, amended: concatenating all segments of `split_preserving_protected`
reproduces the original text provided the supplied ranges are ordered,
non-overlapping and within bounds, and every unprotected gap is reproduced
exactly by `recursive_split`.  In general the reproduction fails, because
`recursive_split` trims whitespace and discards matched separators, and
because `extract_protected_ranges` can emit overlapping ranges whose
protected slices are then duplicated. -/
theorem C1_amended (csize : Nat) (text : List Char) (ranges : List (Nat × Nat))
    (hr : rangesOkB text ranges 0 = true) (hg : gapsOkB csize text ranges 0 = true) :
    (split_preserving_protected csize text ranges).flatten = text := by
  have h := sppAux_flatten csize text ranges 0 hr hg
  simpa [split_preserving_protected] using h

/-- C1, witness for the amended theorem: a document with one code fence and
clean gaps is reassembled exactly. -/
theorem C1_amended_witness :
    rangesOkB "abc```x```def".data
        (extract_protected_ranges "abc```x```def".data) 0 = true ∧
      gapsOkB 200 "abc```x```def".data
        (extract_protected_ranges "abc```x```def".data) 0 = true ∧
      (split_preserving_protected 200 "abc```x```def".data
        (extract_protected_ranges "abc```x```def".data)).flatten = "abc```x```def".data :=
  ⟨by decide, by decide,
    C1_amended 200 "abc```x```def".data
      (extract_protected_ranges "abc```x```def".data) (by decide) (by decide)⟩

/-- C3, counterexample: on `"# Title\n\nSome short paragraph."` with
`chunk_size = 200`, `chunk_overlap = 50` the pipeline does NOT return
`"Title\n\nSome short paragraph."`: the header line stays in the chunk body
and the header path is prepended in front of it. -/
theorem C3_counterexample :
    (splitS 200 50 hsEmpty "# Title\n\nSome short paragraph.".data).1 ≠
      ["Title\n\nSome short paragraph.".data] := by
  decide

/-- C3, amended: that input yields exactly one chunk, equal to
`"Title\n\n# Title\n\nSome short paragraph."` (header path, blank line, then
the unmodified document text including the `# Title` line). -/
theorem C3_amended :
    (splitS 200 50 hsEmpty "# Title\n\nSome short paragraph.".data).1 =
      ["Title\n\n# Title\n\nSome short paragraph.".data] := by
  decide

/-- C8, counterexample: not every piece returned by `recursive_split` is
non-empty after trimming.  With the default `chunk_size = 200`, a 402
character text `"a" ++ 400 spaces ++ "b"` contains no separator, so the
fixed-width fallback slices it into 200-character pieces, and the middle
piece is 200 spaces — empty after trimming. -/
theorem C8_counterexample :
    List.replicate 200 ' ' ∈
        recursive_split 200 ("a".data ++ List.replicate 400 ' ' ++ "b".data) ∧
      pyStrip (List.replicate 200 ' ') = [] := by
  constructor
  · decide
  · decide

/-- C8, amended: for `chunk_size ≥ 1` every piece returned by
`recursive_split` is a non-empty string, but a fixed-width fallback slice may
consist entirely of whitespace, i.e. be empty after trimming. -/
theorem C8_amended (csize : Nat) (h1 : 1 ≤ csize) (text p : List Char)
    (hp : p ∈ recursive_split csize text) : p ≠ [] :=
  recursive_split_ne_nil csize h1 text p hp

/-- C8, witness for the amended theorem. -/
theorem C8_amended_witness :
    1 ≤ 200 ∧ "hi".data ∈ recursive_split 200 "hi".data ∧ "hi".data ≠ [] :=
  ⟨by decide, by decide, C8_amended 200 (by decide) "hi".data "hi".data (by decide)⟩

/-- C9: `split("")` returns an empty chunk sequence, for every configuration
(all core functions are total Lean functions by construction; the only
Python-level partiality is the fixed-width loop at `chunk_size = 0`, which
the embedding documents at `slicesOfFuel`). -/
theorem C9_empty_input (csize k : Nat) : (splitS csize k hsEmpty "".data).1 = [] := rfl

/-- C10, counterexample: the header map is an instance field and survives a
`split` call: after splitting `"# A"`, splitting `"hello"` on the same
instance prepends the stale header path `"A"`, unlike a fresh instance. -/
theorem C10_counterexample :
    (splitS 200 50 (splitS 200 50 hsEmpty "# A".data).2 "hello".data).1 ≠
      (splitS 200 50 hsEmpty "hello".data).1 := by
  decide

/-- C10, amended: the range list and segment list are recomputed per call,
but the header map persists across calls on the same instance.  A second
`split` call therefore agrees with a fresh instance whenever the first
document contains no header line (the header scan finds no match); in
general the header map carries over (see the counterexample). -/
theorem C10_amended (csize k : Nat) (d1 d2 : List Char)
    (h : headerScan d1 = []) :
    (splitS csize k (splitS csize k hsEmpty d1).2 d2).1 =
      (splitS csize k hsEmpty d2).1 := by
  have hstate : (splitS csize k hsEmpty d1).2 = hsEmpty := by
    simp only [splitS, update_from_text, h, List.foldl_nil]
  rw [hstate]

/-- C10, witness for the amended theorem. -/
theorem C10_amended_witness :
    headerScan "no headers here".data = [] ∧
      (splitS 200 50 (splitS 200 50 hsEmpty "no headers here".data).2 "x".data).1 =
        (splitS 200 50 hsEmpty "x".data).1 :=
  ⟨by decide, C10_amended 200 50 "no headers here".data "x".data (by decide)⟩

/-- C2: every protected range detected by `extract_protected_ranges` appears
wholly (as an infix) inside a single chunk of the pipeline output — the
merger never cuts a segment, and `split_preserving_protected` emits every
range verbatim as one segment; moreover (scenario) a 500-character fenced
code block alone in the document with `chunk_size = 200` is emitted verbatim
as the single chunk, exceeding `chunk_size` rather than being split. -/
theorem C2_atomicity :
    (∀ (csize k : Nat) (text : List Char) (r : Nat × Nat),
        r ∈ extract_protected_ranges text →
        ∃ c ∈ (splitS csize k hsEmpty text).1, pySlice text r.1 r.2 <:+: c) ∧
      (splitS 200 50 hsEmpty
          ("```".data ++ List.replicate 494 'a' ++ "```".data)).1 =
        ["```".data ++ List.replicate 494 'a' ++ "```".data] := by
  constructor
  · intro csize k text r hr
    have hv := extract_protected_ranges_valid text r hr
    have hne := pySlice_ne_nil text r.1 r.2 hv.1 hv.2
    have hmem : pySlice text r.1 r.2 ∈
        split_preserving_protected csize text (extract_protected_ranges text) :=
      sppAux_slice_mem csize text _ 0 r hr
    obtain ⟨c, hcm, hinf⟩ :=
      merge_seg_infix csize k
        (split_preserving_protected csize text (extract_protected_ranges text)) []
        (pySlice text r.1 r.2) hmem hne
    refine ⟨if (get_headers (update_from_text hsEmpty text)).isEmpty then c
        else get_headers (update_from_text hsEmpty text) ++ ['\n', '\n'] ++ c, ?_, ?_⟩
    · simp only [splitS]
      exact List.mem_map_of_mem _ hcm
    · by_cases hh : (get_headers (update_from_text hsEmpty text)).isEmpty = true
      · simpa [hh] using hinf
      · rw [if_neg hh]
        have hsfx : c <:+ get_headers (update_from_text hsEmpty text) ++
            ['\n', '\n'] ++ c :=
          List.suffix_append _ c
        exact hinf.trans hsfx.isInfix
  · decide

/-- C2, witness for the universally quantified part, at the link document
`"[a](b)"` whose single protected range is `(0, 6)`. -/
theorem C2_witness :
    (0, 6) ∈ extract_protected_ranges "[a](b)".data ∧
      ∃ c ∈ (splitS 200 50 hsEmpty "[a](b)".data).1,
        pySlice "[a](b)".data 0 6 <:+: c :=
  ⟨by decide, C2_atomicity.1 200 50 "[a](b)".data (0, 6) (by decide)⟩

/-- C4: for every segment list and every (also zero) `chunk_overlap`, in the
output of `merge_chunks` each chunk's prefix of length
`min(chunk_overlap, len(previous))` equals the last that-many characters of
the previous chunk. -/
theorem C4_overlap_correct (csize k : Nat) (segs : List (List Char)) :
    List.Chain' (fun a b =>
        b.take (min k a.length) = a.drop (a.length - min k a.length))
      (merge_chunks csize k segs) := by
  have h := (mergeAux_chain csize k segs []).1
  refine List.Chain'.imp ?_ h
  intro a b hab
  by_cases hk : k = 0
  · subst hk
    simp
  · by_cases hlt : k < a.length
    · have hov : pyOverlap a k = a.drop (a.length - k) := by
        simp [pyOverlap, hlt, hk]
      rw [hov] at hab
      have hlen : (a.drop (a.length - k)).length = k := by
        simp
        omega
      have htake := List.prefix_iff_eq_take.mp hab
      rw [hlen] at htake
      have hmin : min k a.length = k := by omega
      rw [hmin]
      exact htake.symm
    · have hov : pyOverlap a k = a := by simp [pyOverlap, hlt]
      rw [hov] at hab
      have hmin : min k a.length = a.length := by omega
      rw [hmin]
      have htake := List.prefix_iff_eq_take.mp hab
      simp only [Nat.sub_self, List.drop_zero]
      exact htake.symm

/-- C5: with `chunk_overlap ≥ 1`, every chunk of the pipeline's merge stage
that does not contain an oversized protected slice as an infix has length at
most `chunk_size + chunk_overlap` (all non-protected segments are at most
`chunk_size` long, and the carried overlap is at most `chunk_overlap`). -/
theorem C5_size_bound (csize k : Nat) (text : List Char) (hk : 1 ≤ k)
    (c : List Char)
    (hc : c ∈ merge_chunks csize k
        (split_preserving_protected csize text (extract_protected_ranges text)))
    (hno : ∀ r ∈ extract_protected_ranges text,
        csize < (pySlice text r.1 r.2).length → ¬ pySlice text r.1 r.2 <:+: c) :
    c.length ≤ csize + k := by
  have hsegs : ∀ sg ∈ split_preserving_protected csize text
      (extract_protected_ranges text),
      sg.length ≤ csize ∨
        ∃ r ∈ extract_protected_ranges text,
          sg = pySlice text r.1 r.2 ∧ csize < sg.length := by
    intro sg hs
    rcases sppAux_classify csize text _ 0 sg hs with hle | hex
    · exact Or.inl hle
    · obtain ⟨r, hrr, hr2⟩ := hex
      by_cases hlen : sg.length ≤ csize
      · exact Or.inl hlen
      · exact Or.inr ⟨r, hrr, hr2, by omega⟩
  have hc' : c ∈ mergeAux csize k
      (split_preserving_protected csize text (extract_protected_ranges text)) [] := hc
  have hmain := merge_size csize k
      (fun sg => ∃ r ∈ extract_protected_ranges text,
        sg = pySlice text r.1 r.2 ∧ csize < sg.length) hk
      (split_preserving_protected csize text (extract_protected_ranges text)) []
      hsegs (Or.inl (by simp)) c hc'
  rcases hmain with h | hbad
  · exact h
  · obtain ⟨sg, ⟨r, hrr, hseq, hlen⟩, hinf⟩ := hbad
    subst hseq
    exact absurd hinf (hno r hrr hlen)

/-- C5, witness: the single-chunk document `"hello"` has no protected range
and its chunk respects the bound. -/
theorem C5_witness :
    1 ≤ 50 ∧
      "hello".data ∈ merge_chunks 200 50
        (split_preserving_protected 200 "hello".data
          (extract_protected_ranges "hello".data)) ∧
      (∀ r ∈ extract_protected_ranges "hello".data,
          200 < (pySlice "hello".data r.1 r.2).length →
          ¬ pySlice "hello".data r.1 r.2 <:+: "hello".data) ∧
      ("hello".data).length ≤ 200 + 50 :=
  ⟨by decide, by decide, by decide,
    C5_size_bound 200 50 "hello".data (by decide) "hello".data (by decide)
      (by decide)⟩

/-- C6: each header match sets `active_headers[level]` to the trimmed title
and deletes every entry of strictly greater level (so after the step every
entry has level at most the match's level and the match's level maps to the
trimmed title); scanning `"# A\n## B\n# C"` therefore ends with header path
`"C"`. -/
theorem C6_header_clearing :
    (∀ (st : HeaderState) (lv : Nat) (title : List Char),
        (∀ p ∈ updateStep st (lv, title), p.1 ≤ lv) ∧
          List.lookup lv (updateStep st (lv, title)) = some (pyStrip title)) ∧
      get_headers (update_from_text hsEmpty "# A\n## B\n# C".data) = "C".data := by
  refine ⟨?_, by decide⟩
  intro st lv title
  exact ⟨updateStep_level_le st lv title, lookup_updateStep lv (pyStrip title) st⟩

/-- C6, witness for the quantified part: one concrete update step. -/
theorem C6_witness :
    (2, "T".data) ∈ updateStep [(5, "Z".data)] (2, " T ".data) ∧
      (2 : Nat) ≤ 2 ∧
      List.lookup 2 (updateStep [(5, "Z".data)] (2, " T ".data)) =
        some (pyStrip " T ".data) :=
  ⟨by decide,
    (C6_header_clearing.1 [(5, "Z".data)] 2 " T ".data).1 (2, "T".data) (by decide),
    (C6_header_clearing.1 [(5, "Z".data)] 2 " T ".data).2⟩

/-- C7: every chunk a single `split` call (fresh tracker) emits is a merge
chunk prefixed by one fixed string — the header path of the whole-document
scan — prepended as `"{header_path}\n\n"` when non-empty and omitted when
empty. -/
theorem C7_header_prefix (csize k : Nat) (text c : List Char)
    (hc : c ∈ (splitS csize k hsEmpty text).1) :
    ∃ body ∈ merge_chunks csize k
        (split_preserving_protected csize text (extract_protected_ranges text)),
      c = if (get_headers (update_from_text hsEmpty text)).isEmpty then body
          else get_headers (update_from_text hsEmpty text) ++ ['\n', '\n'] ++ body := by
  simp only [splitS] at hc
  rw [List.mem_map] at hc
  obtain ⟨body, hb, hbc⟩ := hc
  exact ⟨body, hb, hbc.symm⟩

/-- C7, witness at the document `"# A\n\nhi"`. -/
theorem C7_witness :
    "A\n\n# A\n\nhi".data ∈ (splitS 200 50 hsEmpty "# A\n\nhi".data).1 ∧
      ∃ body ∈ merge_chunks 200 50
          (split_preserving_protected 200 "# A\n\nhi".data
            (extract_protected_ranges "# A\n\nhi".data)),
        "A\n\n# A\n\nhi".data =
          if (get_headers (update_from_text hsEmpty "# A\n\nhi".data)).isEmpty then body
          else get_headers (update_from_text hsEmpty "# A\n\nhi".data) ++
            ['\n', '\n'] ++ body :=
  ⟨by decide,
    C7_header_prefix 200 50 "# A\n\nhi".data "A\n\n# A\n\nhi".data (by decide)⟩

end Chunking
